import Mathlib

/-!
Verification development for the smart-notes-app backend
(`src/backend/server.js`), a retrieval-augmented QA pipeline.
JavaScript strings are modelled as lists of characters (`Str`);
the external gateways (embedding, generation, vector store) are
modelled as function parameters, mirroring the spec's collaborator
contracts.
-/

set_option maxRecDepth 100000

abbrev Str := List Char

/-- ECMAScript whitespace class: the characters matched by the regex
class `\s` and trimmed by `String.prototype.trim` (WhiteSpace plus
LineTerminator, ECMA-262). -/
def isWS (c : Char) : Bool :=
  c == ' ' || c == '\t' || c == '\n' || c == '\r' ||
  c.val == 0x0B || c.val == 0x0C || c.val == 0xA0 || c.val == 0xFEFF ||
  c.val == 0x1680 || (0x2000 ≤ c.val && c.val ≤ 0x200A) ||
  c.val == 0x2028 || c.val == 0x2029 || c.val == 0x202F ||
  c.val == 0x205F || c.val == 0x3000

/-- Sentence-terminator characters of the chunker's boundary regex
`(?<=[.?!])\s+` in `chunkText` (server.js line 34). -/
def isTerm (c : Char) : Bool :=
  c == '.' || c == '?' || c == '!'

/-- Drop leading ECMAScript whitespace. -/
def trimL (s : Str) : Str := s.dropWhile isWS

/-- Drop trailing ECMAScript whitespace. -/
def trimR (s : Str) : Str := (s.reverse.dropWhile isWS).reverse

/-- JavaScript `String.prototype.trim`: drop whitespace at both ends. -/
def trim (s : Str) : Str := trimL (trimR s)

/-- State machine for JavaScript `text.split(/(?<=[.?!])\s+/)`
(server.js line 34).  A separator is a maximal whitespace run whose
preceding character is `.`, `?` or `!`.  The state is `some cur` while
accumulating a sentence (`cur` holds its characters reversed) and
`none` while skipping the whitespace of a separator. -/
def splitAux : List Char → Option Str → List Str
  | [], none => [[]]
  | [], some cur => [cur.reverse]
  | c :: rest, none =>
      if isWS c then splitAux rest none
      else splitAux rest (some [c])
  | c :: rest, some cur =>
      if isWS c && cur.head?.any isTerm then
        cur.reverse :: splitAux rest none
      else
        splitAux rest (some (c :: cur))

/-- `text.split(/(?<=[.?!])\s+/)`: the sentence list of a text. -/
def splitSentences (text : Str) : List Str := splitAux text (some [])

/-- The accumulation loop of `chunkText` (server.js lines 38-46):
greedily pack sentences into `current`; when appending the next
sentence would exceed `chunkSize`, close `current` (trimmed) and
restart the buffer from that sentence; finally flush a non-empty
trimmed buffer. -/
def chunkLoop (chunkSize : Nat) : List Str → Str → List Str
  | [], current =>
      if trim current = [] then [] else [trim current]
  | s :: rest, current =>
      if chunkSize < (current ++ s).length then
        trim current :: chunkLoop chunkSize rest (s ++ [' '])
      else
        chunkLoop chunkSize rest (current ++ s ++ [' '])

/-- `chunkText(text, chunkSize)` (server.js lines 33-48).  The source
declares the default `chunkSize = 400`; call sites in this file pass
400 explicitly where the source relies on the default. -/
def chunkText (text : Str) (chunkSize : Nat) : List Str :=
  chunkLoop chunkSize (splitSentences text) []

/-- Synthetic line-range start for chunk ordinal `i`
(server.js line 91: `const lineStart = i * 15 + 1`). -/
def lineStartOf (i : Nat) : Nat := i * 15 + 1

/-- Synthetic line-range end for chunk ordinal `i`
(server.js line 92: `const lineEnd = (i + 1) * 15`). -/
def lineEndOf (i : Nat) : Nat := (i + 1) * 15

/-- Metadata attached to each upserted vector record
(server.js lines 99-105). -/
structure Metadata where
  file : Str
  chunkIndex : Nat
  lineStart : Nat
  lineEnd : Nat
  text : Str
deriving DecidableEq

/-- A vector record as upserted into the Pinecone namespace
(server.js lines 95-107).  The embedding vector type is abstract
(`V`), matching the external Embedding Gateway contract. -/
structure VectorRecord (V : Type) where
  id : Str
  values : V
  metadata : Metadata
deriving DecidableEq

/-- The record built for chunk ordinal `i` with text `c` of file `f`
(server.js lines 95-107): id `` `${file.name}-${i}` ``, the embedding
vector, and metadata `{file, chunkIndex, lineStart, lineEnd, text}`. -/
def mkRecord {V : Type} (f : Str) (i : Nat) (c : Str) (v : V) : VectorRecord V :=
  { id := f ++ '-' :: (Nat.repr i).data
    values := v
    metadata :=
      { file := f
        chunkIndex := i
        lineStart := lineStartOf i
        lineEnd := lineEndOf i
        text := c } }

/-- The indexing loop of the upload handler (server.js lines 83-108)
with an infallible Embedding Gateway `embed`: the ordered list of
`(namespace, record)` upserts it issues, starting at ordinal `i`. -/
def uploadLoop {V : Type} (embed : Str → V) (f : Str) :
    List Str → Nat → List (Str × VectorRecord V)
  | [], _ => []
  | c :: rest, i =>
      (f, mkRecord f i c (embed c)) :: uploadLoop embed f rest (i + 1)

/-- All upserts issued when indexing file `f` with extracted text
`text`: the handler chunks with the default `chunkSize = 400` and
walks the chunks from ordinal 0 (server.js lines 80-108). -/
def uploadOps {V : Type} (embed : Str → V) (f text : Str) :
    List (Str × VectorRecord V) :=
  uploadLoop embed f (chunkText text 400) 0

/-- Errors of the indexing path: Embedding Gateway failure or Vector
Store write failure, each carrying a JavaScript `err.message`. -/
inductive UpErr where
  | embeddingUnavailable (msg : Str)
  | storeWriteFailed (msg : Str)
deriving DecidableEq

/-- The `err.message` a thrown error exposes to the catch block. -/
def errMessage : UpErr → Str
  | UpErr.embeddingUnavailable m => m
  | UpErr.storeWriteFailed m => m

/-- The JSON bodies the upload route can answer with: the success
object `{success, message, chunks}` (server.js lines 110-114) or the
catch-all error object `{error: err.message}` (line 117). -/
inductive UploadResponse where
  | success (message : Str) (chunks : Nat)
  | serverError (error : Str)
deriving DecidableEq

/-- The indexing loop with fallible gateways (server.js lines 83-108):
each iteration awaits the embedding, then awaits the upsert; the first
rejection propagates out of the loop.  Returns the upserts that
completed (in order) and the loop's outcome. -/
def uploadRun {V : Type} (embed : Str → Except UpErr V)
    (upsert : Str → VectorRecord V → Except UpErr Unit) (f : Str) :
    List Str → Nat → List (Str × VectorRecord V) →
      List (Str × VectorRecord V) × Except UpErr Unit
  | [], _, done => (done.reverse, Except.ok ())
  | c :: rest, i, done =>
      match embed c with
      | Except.error e => (done.reverse, Except.error e)
      | Except.ok v =>
          match upsert f (mkRecord f i c v) with
          | Except.error e => (done.reverse, Except.error e)
          | Except.ok _ =>
              uploadRun embed upsert f rest (i + 1) ((f, mkRecord f i c v) :: done)

/-- How the upload route turns the loop outcome into a response:
success answers `{message, chunks: chunks.length}` (lines 110-114),
a thrown error is caught and answered as `{error: err.message}`
(lines 115-118). -/
def uploadRespond (f : Str) (chunksLen : Nat) :
    List (Str × VectorRecord Nat) × Except UpErr Unit →
      List (Str × VectorRecord Nat) × UploadResponse
  | (ops, Except.ok _) =>
      (ops, UploadResponse.success (f ++ " uploaded & indexed successfully.".data) chunksLen)
  | (ops, Except.error e) =>
      (ops, UploadResponse.serverError (errMessage e))

/-- The upload route's indexing phase end to end (server.js lines
80-118), for a document whose extracted text is `text`. -/
def uploadHandler (embed : Str → Except UpErr Nat)
    (upsert : Str → VectorRecord Nat → Except UpErr Unit) (f text : Str) :
    List (Str × VectorRecord Nat) × UploadResponse :=
  uploadRespond f (chunkText text 400).length
    (uploadRun embed upsert f (chunkText text 400) 0 [])

/-- A raw match as returned by a Pinecone namespace query; its
metadata is optional (`m.metadata?` in server.js lines 147-149). -/
structure RawMatch where
  metadata : Option Metadata
deriving DecidableEq

/-- A member of `allMatches` (server.js lines 144-151): file set to
the namespace name, text defaulted to the empty string, line bounds
defaulted to `null` (modelled as `none`). -/
structure SourceMatch where
  file : Str
  text : Str
  lineStart : Option Nat
  lineEnd : Option Nat
deriving DecidableEq

/-- `m => ({file, text, lineStart, lineEnd})` (server.js lines 145-150). -/
def toSourceMatch (ns : Str) (m : RawMatch) : SourceMatch :=
  { file := ns
    text := (m.metadata.map Metadata.text).getD []
    lineStart := m.metadata.map Metadata.lineStart
    lineEnd := m.metadata.map Metadata.lineEnd }

/-- The namespace fan-out loop of the search route (server.js lines
136-153): for each namespace issue a top-3 query (`q ns 3`) and append
the mapped matches to the accumulator when non-empty. -/
def searchLoop (q : Str → Nat → List RawMatch) :
    List Str → List SourceMatch → List SourceMatch
  | [], acc => acc
  | ns :: rest, acc =>
      if (q ns 3).isEmpty then searchLoop q rest acc
      else searchLoop q rest (acc ++ (q ns 3).map (toSourceMatch ns))

/-- `allMatches` after the fan-out over all namespaces. -/
def searchMatches (nss : List Str) (q : Str → Nat → List RawMatch) :
    List SourceMatch :=
  searchLoop q nss []

/-- The JSON bodies the search route can answer with: the 400 for a
blank query (line 125), or the 200 `{answer, sources}` object
(lines 155-159 and 178-186). -/
inductive SearchResponse where
  | ok (answer : Str) (sources : List SourceMatch)
  | badRequest (error : Str)
deriving DecidableEq

/-- The fixed not-found answer (server.js line 157). -/
def notFoundAnswer : Str :=
  "I could not find that information in your documents.".data

/-- The system instruction of the generation call (server.js
lines 167-170). -/
def sysInstruction : Str :=
  ("You are a helpful assistant that answers based only on the " ++
   "provided document text. Be concise and accurate.").data

/-- The user prompt of the generation call (server.js line 171). -/
def userPrompt (query context : Str) : Str :=
  "Question: ".data ++ query ++ "\n\nContext:\n".data ++ context

/-- The search route (server.js lines 122-191).  `embed` is the
Embedding Gateway, `q ns v k` the Vector Store top-`k` query of
namespace `ns` with vector `v`, and `gen` the Generation Gateway
(system instruction and user prompt to answer text). -/
def searchHandler {V : Type} (embed : Str → V)
    (q : Str → V → Nat → List RawMatch) (gen : Str → Str → Str)
    (query : Str) (nss : List Str) : SearchResponse :=
  if (trim query).isEmpty then
    SearchResponse.badRequest "Query required.".data
  else
    let ms := searchMatches nss (fun ns k => q ns (embed query) k)
    if ms.isEmpty then
      SearchResponse.ok notFoundAnswer []
    else
      let context := List.intercalate ('\n' :: '\n' :: []) (ms.map SourceMatch.text)
      SearchResponse.ok (trim (gen sysInstruction (userPrompt query context))) ms

/-- The Vector Store state, modelled from the spec: §6 gives the
external store contract (namespace-scoped records, `deleteNamespace`),
and §7 fixes that deleting an unknown namespace is a no-op success.
A namespace with no records is indistinguishable from an absent one,
so the store is a total map from namespace names to record lists. -/
def Store (V : Type) : Type := Str → List (VectorRecord V)

/-- `namespace.deleteAll()` on namespace `f` (server.js line 210),
under the spec §6/§7 store contract: every record of the namespace is
removed; other namespaces are untouched. -/
def deleteAllNs {V : Type} (store : Store V) (f : Str) : Store V :=
  fun n => if n = f then [] else store n

/-- The JSON bodies of the delete route: `{message}` on success
(server.js line 215) or `{error}` from the catch block (line 218). -/
inductive DeleteResponse where
  | ok (message : Str)
  | serverError (error : Str)
deriving DecidableEq

/-- The delete route (server.js lines 205-220): clear the namespace,
then answer with the success message. -/
def deleteHandler {V : Type} (store : Store V) (f : Str) :
    Store V × DeleteResponse :=
  (deleteAllNs store f, DeleteResponse.ok (f ++ " deleted successfully.".data))

/-- The normalized sentence sequence of a text, following the spec's
words (§3, §8): the document's sentences with whitespace normalized at
sentence boundaries — each sentence trimmed, empty sentences dropped,
single spaces between consecutive sentences. -/
def joinSp (l : List Str) : Str :=
  List.intercalate (' ' :: []) (l.filter (fun s => !s.isEmpty))

/-- Spec-side definition for claim C1: the normalized sentence
sequence of the input text, as one string. -/
def normalizedText (text : Str) : Str :=
  joinSp ((splitSentences text).map trim)

/-- Concatenation `current += sentence + " "` iterated over a block of
sentences: the chunk buffer a block of sentences produces. -/
def sjoin (l : List Str) : Str :=
  (l.map (fun s => s ++ ' ' :: [])).flatten

/-- Combining two normalized fragments with a single space, used to
state how `joinSp` distributes over append. -/
def combineSp (x y : Str) : Str :=
  if x = [] then y else if y = [] then x else x ++ ' ' :: y

/-- A string with no leading whitespace (as produced for every
sentence after a separator, since the separator consumed the
whitespace run). -/
def noLead (s : Str) : Prop := trimL s = s

/-- A string ending in a sentence terminator, as every sentence
before a separator does (the lookbehind of the boundary regex). -/
def endsTerm (s : Str) : Prop := ∃ t c, s = t ++ (c :: []) ∧ isTerm c = true

/-- Shape invariant of a sentence list produced by `splitSentences`:
every sentence but the first starts with a non-whitespace character,
and every sentence but the last ends in `.`, `?` or `!`. -/
def SentOk (l : List Str) : Prop :=
  (∀ s ∈ l.drop 1, noLead s) ∧ (∀ s ∈ l.dropLast, endsTerm s)

theorem isWS_of_isTerm (c : Char) (h : isTerm c = true) : isWS c = false := by
  simp only [isTerm, Bool.or_eq_true, beq_iff_eq] at h
  rcases h with (h | h) | h <;> subst h <;> decide

theorem dropWhile_append_of_forall (p : Char → Bool) (u v : List Char)
    (h : ∀ c ∈ u, p c = true) : (u ++ v).dropWhile p = v.dropWhile p := by
  induction u with
  | nil => rfl
  | cons a u ih =>
      have ha : p a = true := h a (List.mem_cons_self a u)
      simp only [List.cons_append, List.dropWhile_cons, ha, if_true]
      exact ih (fun c hc => h c (List.mem_cons_of_mem a hc))

theorem dropWhile_append_of_ne_nil (p : Char → Bool) (u v : List Char)
    (h : u.dropWhile p ≠ []) : (u ++ v).dropWhile p = u.dropWhile p ++ v := by
  induction u with
  | nil => exact absurd rfl h
  | cons a u ih =>
      by_cases ha : p a = true
      · simp only [List.dropWhile_cons, ha, if_true] at h ⊢
        simp only [List.cons_append, List.dropWhile_cons, ha, if_true]
        exact ih h
      · have ha' : p a = false := by
          cases hpa : p a
          · rfl
          · exact absurd hpa ha
        simp only [List.cons_append, List.dropWhile_cons, ha', Bool.false_eq_true,
          if_false]

theorem trimL_append_of_ne_nil (a b : Str) (h : trimL a ≠ []) :
    trimL (a ++ b) = trimL a ++ b :=
  dropWhile_append_of_ne_nil isWS a b h

theorem trimR_append_of_ne_nil (a b : Str) (h : trimR b ≠ []) :
    trimR (a ++ b) = a ++ trimR b := by
  have hb : b.reverse.dropWhile isWS ≠ [] := by
    intro hc
    apply h
    simp only [trimR, hc, List.reverse_nil]
  simp only [trimR, List.reverse_append,
    dropWhile_append_of_ne_nil isWS b.reverse a.reverse hb, List.reverse_append,
    List.reverse_reverse]

theorem trimR_append_ws (s w : Str) (hw : ∀ c ∈ w, isWS c = true) :
    trimR (s ++ w) = trimR s := by
  simp only [trimR, List.reverse_append]
  rw [dropWhile_append_of_forall isWS w.reverse s.reverse
    (fun c hc => hw c (List.mem_reverse.mp hc))]

theorem trim_append_ws (s w : Str) (hw : ∀ c ∈ w, isWS c = true) :
    trim (s ++ w) = trim s := by
  simp only [trim, trimR_append_ws s w hw]

theorem trim_append_space (s : Str) : trim (s ++ ' ' :: []) = trim s := by
  refine trim_append_ws s (' ' :: []) ?_
  intro c hc
  rcases List.mem_singleton.mp hc with rfl
  decide

theorem trimR_eq_self_of_endsTerm (s : Str) (h : endsTerm s) : trimR s = s := by
  rcases h with ⟨t, c, rfl, hc⟩
  simp only [trimR, List.reverse_append, List.reverse_cons, List.reverse_nil,
    List.nil_append, List.cons_append, List.nil_append, List.dropWhile_cons,
    isWS_of_isTerm c hc, Bool.false_eq_true, if_false, List.reverse_cons,
    List.reverse_reverse]

theorem trimL_ne_nil_of_endsTerm (s : Str) (h : endsTerm s) : trimL s ≠ [] := by
  rcases h with ⟨t, c, rfl, hc⟩
  intro hnil
  have := List.dropWhile_eq_nil_iff.mp hnil c (by simp)
  rw [isWS_of_isTerm c hc] at this
  exact Bool.false_ne_true this

theorem trim_ne_nil_of_endsTerm (s : Str) (h : endsTerm s) : trim s ≠ [] := by
  rw [trim, trimR_eq_self_of_endsTerm s h]
  exact trimL_ne_nil_of_endsTerm s h

theorem trim_eq_trimL_of_endsTerm (s : Str) (h : endsTerm s) : trim s = trimL s := by
  rw [trim, trimR_eq_self_of_endsTerm s h]

theorem trim_eq_nil_iff (s : Str) : trim s = [] ↔ ∀ c ∈ s, isWS c = true := by
  constructor
  · intro h c hc
    have hsplit : trimR s ++ (s.reverse.takeWhile isWS).reverse = s := by
      simp only [trimR, ← List.reverse_append, List.takeWhile_append_dropWhile,
        List.reverse_reverse]
    have hL : ∀ x ∈ trimR s, isWS x = true := List.dropWhile_eq_nil_iff.mp h
    rw [← hsplit] at hc
    rcases List.mem_append.mp hc with hc | hc
    · exact hL c hc
    · exact List.mem_takeWhile_imp (List.mem_reverse.mp hc)
  · intro h
    have hR : trimR s = [] := by
      simp only [trimR, List.reverse_eq_nil_iff]
      exact List.dropWhile_eq_nil_iff.mpr fun x hx => h x (List.mem_reverse.mp hx)
    rw [trim, hR]
    rfl

theorem head?_trimR (s : Str) (h : trimR s ≠ []) : (trimR s).head? = s.head? := by
  have hsplit : trimR s ++ (s.reverse.takeWhile isWS).reverse = s := by
    simp only [trimR, ← List.reverse_append, List.takeWhile_append_dropWhile,
      List.reverse_reverse]
  conv_rhs => rw [← hsplit]
  exact (List.head?_append_of_ne_nil _ h).symm

theorem trimL_eq_self_of_head (c : Char) (t : Str) (h : isWS c = false) :
    trimL (c :: t) = c :: t := by
  simp only [trimL, List.dropWhile_cons, h, Bool.false_eq_true, if_false]

theorem sjoin_nil : sjoin [] = [] := rfl

theorem sjoin_cons (s : Str) (l : List Str) :
    sjoin (s :: l) = s ++ ' ' :: sjoin l := by
  simp [sjoin]

theorem sjoin_append (a b : List Str) : sjoin (a ++ b) = sjoin a ++ sjoin b := by
  simp [sjoin]

theorem sjoin_singleton (s : Str) : sjoin (s :: []) = s ++ ' ' :: [] := by
  simp [sjoin]

theorem combineSp_nil_left (y : Str) : combineSp [] y = y := rfl

theorem combineSp_nil_right (x : Str) : combineSp x [] = x := by
  cases x <;> rfl

theorem joinSp_nil : joinSp [] = [] := rfl

theorem intercalateSp_ne_nil (x : Str) (l : List Str) (hx : x ≠ []) :
    List.intercalate (' ' :: []) (x :: l) ≠ [] := by
  cases l with
  | nil =>
      simpa [List.intercalate, List.intersperse] using hx
  | cons b t =>
      simp [List.intercalate, List.intersperse]

theorem intercalateSp_cons₂ (a b : Str) (t : List Str) :
    List.intercalate (' ' :: []) (a :: b :: t) =
      a ++ ' ' :: List.intercalate (' ' :: []) (b :: t) := by
  simp [List.intercalate, List.intersperse]

theorem intercalateSp_singleton (a : Str) :
    List.intercalate (' ' :: []) (a :: []) = a := by
  simp [List.intercalate, List.intersperse]

theorem combineSp_of_ne (x y : Str) (hx : x ≠ []) (hy : y ≠ []) :
    combineSp x y = x ++ ' ' :: y := by
  unfold combineSp
  rw [if_neg hx, if_neg hy]

theorem joinSp_cons (x : Str) (l : List Str) :
    joinSp (x :: l) = combineSp x (joinSp l) := by
  by_cases hx : x = []
  · subst hx
    simp [joinSp, combineSp, List.filter_cons]
  · have hxe : (!x.isEmpty) = true := by
      cases x
      · exact absurd rfl hx
      · rfl
    have hfil : (x :: l).filter (fun s => !s.isEmpty) =
        x :: l.filter (fun s => !s.isEmpty) := by
      simp [List.filter_cons, hxe]
    rw [joinSp, hfil]
    cases hfl : l.filter (fun s => !s.isEmpty) with
    | nil =>
        have hl : joinSp l = [] := by
          simp [joinSp, hfl, List.intercalate, List.intersperse]
        rw [intercalateSp_singleton, hl, combineSp_nil_right]
    | cons b t =>
        have hb : b ≠ [] := by
          have hmem : b ∈ l.filter (fun s => !s.isEmpty) := by
            rw [hfl]; exact List.mem_cons_self b t
          have := (List.mem_filter.mp hmem).2
          intro hbn
          subst hbn
          simp at this
        have hl : joinSp l = List.intercalate (' ' :: []) (b :: t) := by
          simp [joinSp, hfl]
        have hlne : joinSp l ≠ [] := by
          rw [hl]; exact intercalateSp_ne_nil b t hb
        rw [intercalateSp_cons₂, combineSp_of_ne x (joinSp l) hx hlne, hl]

theorem joinSp_append (a b : List Str) :
    joinSp (a ++ b) = combineSp (joinSp a) (joinSp b) := by
  induction a with
  | nil => rw [List.nil_append, joinSp_nil, combineSp_nil_left]
  | cons x a ih =>
      rw [List.cons_append, joinSp_cons, ih, joinSp_cons]
      by_cases hx : x = []
      · subst hx
        rw [combineSp_nil_left, combineSp_nil_left]
      · by_cases ha : joinSp a = []
        · rw [ha, combineSp_nil_right, combineSp_nil_left]
        · by_cases hb : joinSp b = []
          · rw [hb, combineSp_nil_right, combineSp_nil_right]
          · have h1 : combineSp (joinSp a) (joinSp b) = joinSp a ++ ' ' :: joinSp b :=
              combineSp_of_ne _ _ ha hb
            have h2 : combineSp x (joinSp a) = x ++ ' ' :: joinSp a :=
              combineSp_of_ne _ _ hx ha
            rw [h1, h2, combineSp_of_ne x _ hx (by simp),
              combineSp_of_ne _ _ (by simp) hb]
            simp

theorem splitAux_ne_nil (l : List Char) : ∀ (st : Option Str), splitAux l st ≠ [] := by
  induction l with
  | nil => intro st; cases st <;> simp [splitAux]
  | cons c rest ih =>
      intro st
      cases st with
      | none =>
          simp only [splitAux]
          split
          · exact ih none
          · exact ih (some (c :: []))
      | some cur =>
          simp only [splitAux]
          split
          · simp
          · exact ih (some (c :: cur))

theorem splitAux_head_some (l : List Char) : ∀ (cur : Str),
    ∃ pre, (splitAux l (some cur)).head? = some (cur.reverse ++ pre) := by
  induction l with
  | nil =>
      intro cur
      exact ⟨[], by simp [splitAux]⟩
  | cons c rest ih =>
      intro cur
      simp only [splitAux]
      by_cases h : (isWS c && cur.head?.any isTerm) = true
      · rw [if_pos h]
        exact ⟨[], by simp⟩
      · rw [if_neg h]
        rcases ih (c :: cur) with ⟨pre, hpre⟩
        refine ⟨c :: pre, ?_⟩
        rw [hpre, List.reverse_cons, List.append_assoc]
        rfl

theorem splitAux_head_none (l : List Char) :
    (splitAux l none).head? = some [] ∨
      ∃ c pre, isWS c = false ∧ (splitAux l none).head? = some (c :: pre) := by
  induction l with
  | nil => left; simp [splitAux]
  | cons c rest ih =>
      simp only [splitAux]
      by_cases h : isWS c = true
      · rw [if_pos h]
        exact ih
      · have h' : isWS c = false := by
          cases hc : isWS c
          · rfl
          · exact absurd hc h
        rw [if_neg (by rw [h']; exact Bool.false_ne_true)]
        right
        rcases splitAux_head_some rest (c :: []) with ⟨pre, hpre⟩
        exact ⟨c, pre, h', by simpa using hpre⟩

theorem noLead_nil : noLead [] := rfl

theorem noLead_of_head (c : Char) (t : Str) (h : isWS c = false) : noLead (c :: t) :=
  trimL_eq_self_of_head c t h

theorem splitAux_invariants (l : List Char) : ∀ (st : Option Str),
    (∀ s ∈ (splitAux l st).dropLast, endsTerm s) ∧
    (st = none → ∀ s ∈ splitAux l st, noLead s) ∧
    (∀ cur, st = some cur → ∀ s ∈ (splitAux l st).drop 1, noLead s) := by
  induction l with
  | nil =>
      intro st
      cases st with
      | none =>
          refine ⟨by simp [splitAux], ?_, by simp [splitAux]⟩
          intro _ s hs
          simp [splitAux] at hs
          subst hs
          exact noLead_nil
      | some cur =>
          exact ⟨by simp [splitAux], by simp, by simp [splitAux]⟩
  | cons c rest ih =>
      intro st
      cases st with
      | none =>
          simp only [splitAux]
          by_cases h : isWS c = true
          · rw [if_pos h]
            exact ⟨(ih none).1, fun _ => (ih none).2.1 rfl, by simp⟩
          · have h' : isWS c = false := by
              cases hc : isWS c
              · rfl
              · exact absurd hc h
            rw [if_neg (by rw [h']; exact Bool.false_ne_true)]
            refine ⟨(ih (some (c :: []))).1, ?_, by simp⟩
            intro _ s hs
            have hnn := splitAux_ne_nil rest (some (c :: []))
            cases hout : splitAux rest (some (c :: [])) with
            | nil => exact absurd hout hnn
            | cons hd tl =>
                rcases splitAux_head_some rest (c :: []) with ⟨pre, hpre⟩
                rw [hout] at hpre hs
                simp only [List.head?_cons, Option.some_inj] at hpre
                rcases List.mem_cons.mp hs with rfl | hs'
                · rw [hpre]
                  simpa using noLead_of_head c pre h'
                · have := (ih (some (c :: []))).2.2 (c :: []) rfl
                  rw [hout] at this
                  exact this s (by simpa using hs')
      | some cur =>
          simp only [splitAux]
          by_cases h : (isWS c && cur.head?.any isTerm) = true
          · rw [if_pos h]
            have hterm : ∃ p t, cur = p :: t ∧ isTerm p = true := by
              have h2 := (Bool.and_eq_true _ _).mp h
              cases cur with
              | nil => simp at h2
              | cons p t =>
                  refine ⟨p, t, rfl, ?_⟩
                  simpa using h2.2
            refine ⟨?_, by simp, ?_⟩
            · intro s hs
              have hnn := splitAux_ne_nil rest none
              rw [List.dropLast_cons_of_ne_nil hnn] at hs
              rcases List.mem_cons.mp hs with rfl | hs'
              · rcases hterm with ⟨p, t, rfl, hp⟩
                exact ⟨t.reverse, p, by simp, hp⟩
              · exact (ih none).1 s hs'
            · intro cur' _ s hs
              simp only [List.drop_one, List.tail_cons] at hs
              exact (ih none).2.1 rfl s hs
          · rw [if_neg h]
            refine ⟨(ih (some (c :: cur))).1, by simp, ?_⟩
            intro cur' _ s hs
            exact (ih (some (c :: cur))).2.2 (c :: cur) rfl s hs

theorem splitSentences_sentOk (text : Str) : SentOk (splitSentences text) := by
  refine ⟨?_, (splitAux_invariants text (some [])).1⟩
  have h := (splitAux_invariants text (some [])).2.2 [] rfl
  simpa [splitSentences, List.drop_one] using h

theorem isWS_head_of_noLead (c : Char) (t : Str) (h : noLead (c :: t)) :
    isWS c = false := by
  cases hc : isWS c with
  | false => rfl
  | true =>
      exfalso
      unfold noLead trimL at h
      rw [List.dropWhile_cons, hc, if_pos rfl] at h
      have hlen := congrArg List.length h
      have hle : (t.dropWhile isWS).length ≤ t.length :=
        (List.dropWhile_sublist _).length_le
      simp only [List.length_cons] at hlen
      omega

theorem sentOk_tail (s : Str) (l : List Str) (h : SentOk (s :: l)) : SentOk l := by
  constructor
  · intro x hx
    cases l with
    | nil => simp at hx
    | cons b t =>
        refine h.1 x ?_
        simp only [List.drop_one, List.tail_cons] at hx ⊢
        exact List.mem_cons_of_mem b hx
  · intro x hx
    cases l with
    | nil => simp at hx
    | cons b t =>
        refine h.2 x ?_
        rw [List.dropLast_cons_of_ne_nil (List.cons_ne_nil b t)]
        exact List.mem_cons_of_mem s hx

theorem sentOk_of_append (a l : List Str) (h : SentOk (a ++ l)) : SentOk l := by
  induction a with
  | nil => simpa using h
  | cons x a ih => exact ih (sentOk_tail x (a ++ l) h)

theorem sentOk_init (a l : List Str) (hl : l ≠ []) (h : SentOk (a ++ l)) :
    SentOk a := by
  constructor
  · intro x hx
    cases a with
    | nil => simp at hx
    | cons c a' =>
        refine h.1 x ?_
        simp only [List.drop_one, List.tail_cons, List.cons_append] at hx ⊢
        exact List.mem_append_left l hx
  · intro x hx
    have hxa : x ∈ a := (List.dropLast_sublist a).subset hx
    refine h.2 x ?_
    cases l with
    | nil => exact absurd rfl hl
    | cons c l2 =>
        rw [List.dropLast_append_cons]
        exact List.mem_append_left _ hxa

theorem endsTerm_head (s : Str) (l : List Str) (hl : l ≠ []) (h : SentOk (s :: l)) :
    endsTerm s := by
  refine h.2 s ?_
  rw [List.dropLast_cons_of_ne_nil hl]
  exact List.mem_cons_self s l.dropLast

theorem trim_sjoin : ∀ (l : List Str), SentOk l → trim (sjoin l) = joinSp (l.map trim) := by
  intro l
  induction l with
  | nil => intro _; rfl
  | cons s l ih =>
      intro h
      by_cases hl : l = []
      · subst hl
        rw [sjoin_singleton, trim_append_space, List.map_cons, List.map_nil,
          joinSp_cons, joinSp_nil, combineSp_nil_right]
      · have hterm : endsTerm s := endsTerm_head s l hl h
        have hSl : SentOk l := sentOk_tail s l h
        have ihl := ih hSl
        rw [List.map_cons, joinSp_cons, sjoin_cons, ← ihl]
        by_cases hR : trim (sjoin l) = []
        · have hws : ∀ c ∈ sjoin l, isWS c = true := (trim_eq_nil_iff _).mp hR
          have hws' : ∀ c ∈ ' ' :: sjoin l, isWS c = true := by
            intro c hc
            rcases List.mem_cons.mp hc with rfl | hc'
            · decide
            · exact hws c hc'
          rw [trim_append_ws s (' ' :: sjoin l) hws', hR, combineSp_nil_right]
        · rw [combineSp_of_ne _ _ (trim_ne_nil_of_endsTerm s hterm) hR]
          have h1 : trimR (sjoin l) ≠ [] := by
            intro hc
            exact hR (by rw [trim, hc]; rfl)
          have hhead : ∃ c pre, sjoin l = c :: pre ∧ isWS c = false := by
            cases l with
            | nil => exact absurd rfl hl
            | cons b t =>
                have hblead : noLead b := by
                  refine h.1 b ?_
                  simp
                have hbne : b ≠ [] := by
                  intro hbn
                  subst hbn
                  cases t with
                  | nil =>
                      apply hR
                      rw [trim_eq_nil_iff]
                      intro c hc
                      simp only [sjoin_singleton, List.nil_append,
                        List.mem_singleton] at hc
                      subst hc
                      decide
                  | cons u v =>
                      have : endsTerm [] := by
                        refine hSl.2 [] ?_
                        rw [List.dropLast_cons_of_ne_nil (List.cons_ne_nil u v)]
                        exact List.mem_cons_self _ _
                      rcases this with ⟨w, d, hwd, _⟩
                      exact absurd hwd.symm (by simp)
                cases b with
                | nil => exact absurd rfl hbne
                | cons c bt =>
                    exact ⟨c, bt ++ ' ' :: sjoin t,
                      by rw [sjoin_cons]; rfl, isWS_head_of_noLead c bt hblead⟩
          rcases hhead with ⟨c, pre, hsj, hcws⟩
          have h3 : trim (sjoin l) = trimR (sjoin l) := by
            rw [trim]
            have hh : (trimR (sjoin l)).head? = some c := by
              rw [head?_trimR _ h1, hsj, List.head?_cons]
            cases htr : trimR (sjoin l) with
            | nil => exact absurd htr h1
            | cons c' rest' =>
                rw [htr, List.head?_cons, Option.some_inj] at hh
                exact trimL_eq_self_of_head c' rest' (by rw [hh]; exact hcws)
          have h2 : trimR (s ++ ' ' :: sjoin l) = s ++ ' ' :: trimR (sjoin l) := by
            have := trimR_append_of_ne_nil (s ++ ' ' :: []) (sjoin l) h1
            rw [List.append_assoc] at this
            simpa using this
          rw [trim, h2]
          have hLne : trimL s ≠ [] := trimL_ne_nil_of_endsTerm s hterm
          have h4 : trimL (s ++ ' ' :: trimR (sjoin l)) =
              trimL s ++ ' ' :: trimR (sjoin l) :=
            trimL_append_of_ne_nil s (' ' :: trimR (sjoin l)) hLne
          rw [h4, trim_eq_trimL_of_endsTerm s hterm, h3]

theorem chunkLoop_joinSp (n : Nat) (ss : List Str) : ∀ (acc : List Str),
    SentOk (acc ++ ss) →
    joinSp (chunkLoop n ss (sjoin acc)) = joinSp ((acc ++ ss).map trim) := by
  induction ss with
  | nil =>
      intro acc h
      rw [List.append_nil] at h ⊢
      have htj := trim_sjoin acc h
      by_cases hc : trim (sjoin acc) = []
      · simp only [chunkLoop, if_pos hc]
        rw [joinSp_nil, ← htj, hc]
      · simp only [chunkLoop, if_neg hc]
        rw [← htj, joinSp_cons, joinSp_nil, combineSp_nil_right]
  | cons s rest ih =>
      intro acc h
      simp only [chunkLoop]
      by_cases hover : n < (sjoin acc ++ s).length
      · rw [if_pos hover, joinSp_cons]
        have hsr : SentOk (s :: rest) := sentOk_of_append acc (s :: rest) h
        have hrec := ih (s :: []) (by simpa using hsr)
        have harg : chunkLoop n rest (s ++ [' ']) =
            chunkLoop n rest (sjoin (s :: [])) := by
          rw [sjoin_singleton]
        rw [harg, hrec]
        have hacc : SentOk acc :=
          sentOk_init acc (s :: rest) (List.cons_ne_nil s rest) h
        rw [trim_sjoin acc hacc, ← joinSp_append, ← List.map_append,
          List.singleton_append]
      · rw [if_neg hover]
        have harg : sjoin acc ++ s ++ [' '] = sjoin (acc ++ (s :: [])) := by
          rw [sjoin_append, sjoin_singleton, List.append_assoc]
        rw [harg]
        have h' : SentOk ((acc ++ (s :: [])) ++ rest) := by
          rw [List.append_assoc, List.singleton_append]
          exact h
        rw [ih (acc ++ (s :: [])) h', List.append_assoc, List.singleton_append]

theorem chunkLoop_chunks_infix (n : Nat) (ss : List Str) : ∀ (acc : List Str),
    ∀ c ∈ chunkLoop n ss (sjoin acc),
      ∃ pre b post, acc ++ ss = pre ++ b ++ post ∧ c = trim (sjoin b) := by
  induction ss with
  | nil =>
      intro acc c hc
      simp only [chunkLoop] at hc
      by_cases hnil : trim (sjoin acc) = []
      · rw [if_pos hnil] at hc
        simp at hc
      · rw [if_neg hnil] at hc
        rcases List.mem_singleton.mp hc with rfl
        exact ⟨[], acc, [], by simp, rfl⟩
  | cons s rest ih =>
      intro acc c hc
      simp only [chunkLoop] at hc
      by_cases hover : n < (sjoin acc ++ s).length
      · rw [if_pos hover] at hc
        rcases List.mem_cons.mp hc with rfl | hc'
        · exact ⟨[], acc, s :: rest, by simp, rfl⟩
        · rw [show s ++ [' '] = sjoin (s :: []) from (sjoin_singleton s).symm] at hc'
          rcases ih (s :: []) c hc' with ⟨pre, b, post, hsplit, hcb⟩
          refine ⟨acc ++ pre, b, post, ?_, hcb⟩
          have : acc ++ ((s :: []) ++ rest) = acc ++ (pre ++ b ++ post) := by
            rw [hsplit]
          simpa [List.append_assoc] using this
      · rw [if_neg hover] at hc
        rw [show sjoin acc ++ s ++ [' '] = sjoin (acc ++ (s :: [])) by
          rw [sjoin_append, sjoin_singleton, List.append_assoc]] at hc
        rcases ih (acc ++ (s :: [])) c hc with ⟨pre, b, post, hsplit, hcb⟩
        refine ⟨pre, b, post, ?_, hcb⟩
        rw [← hsplit, List.append_assoc, List.singleton_append]

theorem trim_length_le (s : Str) : (trim s).length ≤ s.length := by
  have h1 : (trimL (trimR s)).length ≤ (trimR s).length :=
    (List.dropWhile_sublist _).length_le
  have h2 : (trimR s).length ≤ s.length := by
    have h3 : (s.reverse.dropWhile isWS).length ≤ s.reverse.length :=
      (List.dropWhile_sublist _).length_le
    simpa [trimR] using h3
  exact le_trans h1 h2

theorem trim_nil : trim [] = [] := rfl

theorem sjoin_length (acc : List Str) (s : Str) :
    (sjoin (acc ++ (s :: []))).length = (sjoin acc).length + s.length + 1 := by
  rw [sjoin_append, sjoin_singleton, List.length_append, List.length_append]
  simp only [List.length_cons, List.length_nil]
  omega

theorem trim_sjoin_length_le (acc : List Str) (hne : acc ≠ []) :
    (trim (sjoin acc)).length + 1 ≤ (sjoin acc).length := by
  rcases List.eq_nil_or_concat acc with rfl | ⟨init, a, rfl⟩
  · exact absurd rfl hne
  · simp only [List.concat_eq_append]
    rw [show sjoin (init ++ (a :: [])) = (sjoin init ++ a) ++ (' ' :: []) by
      rw [sjoin_append, sjoin_singleton, List.append_assoc]]
    rw [trim_append_space]
    have := trim_length_le (sjoin init ++ a)
    rw [List.length_append] at this
    simp only [List.length_append, List.length_cons, List.length_nil]
    omega

theorem chunkLoop_oversize (n : Nat) (ss : List Str) : ∀ (acc : List Str),
    ((sjoin acc).length ≤ n + 1 ∨ ∃ s0, acc = s0 :: []) →
    ∀ c ∈ chunkLoop n ss (sjoin acc), n < c.length →
      ∃ s ∈ acc ++ ss, c = trim s ∧ n < s.length := by
  induction ss with
  | nil =>
      intro acc hinv c hc hlen
      simp only [chunkLoop] at hc
      by_cases hnil : trim (sjoin acc) = []
      · rw [if_pos hnil] at hc
        simp at hc
      · rw [if_neg hnil] at hc
        rcases List.mem_singleton.mp hc with rfl
        rcases hinv with hsmall | ⟨s0, rfl⟩
        · exfalso
          by_cases hacc : acc = []
          · subst hacc
            exact hnil rfl
          · have := trim_sjoin_length_le acc hacc
            omega
        · rw [show sjoin (s0 :: []) = s0 ++ (' ' :: []) from sjoin_singleton s0,
            trim_append_space] at hlen ⊢
          refine ⟨s0, by simp, rfl, ?_⟩
          exact lt_of_lt_of_le hlen (trim_length_le s0)
  | cons s rest ih =>
      intro acc hinv c hc hlen
      simp only [chunkLoop] at hc
      by_cases hover : n < (sjoin acc ++ s).length
      · rw [if_pos hover] at hc
        rcases List.mem_cons.mp hc with rfl | hc'
        · rcases hinv with hsmall | ⟨s0, rfl⟩
          · exfalso
            by_cases hacc : acc = []
            · subst hacc
              rw [show trim (sjoin ([] : List Str)) = [] from rfl] at hlen
              simp at hlen
            · have := trim_sjoin_length_le acc hacc
              omega
          · rw [show sjoin (s0 :: []) = s0 ++ (' ' :: []) from sjoin_singleton s0,
              trim_append_space] at hlen ⊢
            refine ⟨s0, by simp, rfl, ?_⟩
            exact lt_of_lt_of_le hlen (trim_length_le s0)
        · rw [show s ++ [' '] = sjoin (s :: []) from (sjoin_singleton s).symm] at hc'
          rcases ih (s :: []) (Or.inr ⟨s, rfl⟩) c hc' hlen with ⟨t, ht, hct, hlt⟩
          refine ⟨t, ?_, hct, hlt⟩
          rcases List.mem_append.mp ht with ht' | ht'
          · rcases List.mem_singleton.mp ht' with rfl
            exact List.mem_append_right acc (List.mem_cons_self t rest)
          · exact List.mem_append_right acc (List.mem_cons_of_mem s ht')
      · rw [if_neg hover] at hc
        rw [show sjoin acc ++ s ++ [' '] = sjoin (acc ++ (s :: [])) by
          rw [sjoin_append, sjoin_singleton, List.append_assoc]] at hc
        have hsmall : (sjoin (acc ++ (s :: []))).length ≤ n + 1 := by
          rw [sjoin_length]
          have : (sjoin acc ++ s).length ≤ n := Nat.le_of_not_lt hover
          rw [List.length_append] at this
          omega
        rcases ih (acc ++ (s :: [])) (Or.inl hsmall) c hc hlen with ⟨t, ht, hct, hlt⟩
        refine ⟨t, ?_, hct, hlt⟩
        rw [List.append_assoc, List.singleton_append] at ht
        exact ht

theorem chunkLoop_oversized_head (n : Nat) (s0 : Str) (hn : n < s0.length)
    (ht : trim s0 ≠ []) (rest : List Str) :
    (chunkLoop n rest (s0 ++ (' ' :: []))).head? = some (trim s0) := by
  cases rest with
  | nil =>
      simp only [chunkLoop]
      rw [if_neg (by rw [trim_append_space]; exact ht), trim_append_space]
      rfl
  | cons r rest' =>
      have hover : n < ((s0 ++ (' ' :: [])) ++ r).length := by
        simp only [List.length_append, List.length_cons, List.length_nil]
        omega
      simp only [chunkLoop]
      rw [if_pos hover, trim_append_space]
      rfl

theorem uploadLoop_getElem {V : Type} (embed : Str → V) (f : Str) :
    ∀ (cs : List Str) (i0 j : Nat),
      (uploadLoop embed f cs i0)[j]? =
        (cs[j]?).map (fun c => (f, mkRecord f (i0 + j) c (embed c))) := by
  intro cs
  induction cs with
  | nil => intro i0 j; simp [uploadLoop]
  | cons c rest ih =>
      intro i0 j
      cases j with
      | zero => simp [uploadLoop]
      | succ j' =>
          simp only [uploadLoop, List.getElem?_cons_succ]
          rw [ih (i0 + 1) j']
          have harith : i0 + 1 + j' = i0 + (j' + 1) := by omega
          rw [harith]

theorem uploadLoop_length {V : Type} (embed : Str → V) (f : Str) :
    ∀ (cs : List Str) (i0 : Nat),
      (uploadLoop embed f cs i0).length = cs.length := by
  intro cs
  induction cs with
  | nil => intro i0; rfl
  | cons c rest ih => intro i0; simp [uploadLoop, ih (i0 + 1)]

theorem uploadLoop_map_fst {V : Type} (embed : Str → V) (f : Str) :
    ∀ (cs : List Str) (i0 : Nat),
      (uploadLoop embed f cs i0).map Prod.fst = List.replicate cs.length f := by
  intro cs
  induction cs with
  | nil => intro i0; rfl
  | cons c rest ih =>
      intro i0
      simp [uploadLoop, ih (i0 + 1), List.replicate_succ]

theorem uploadLoop_map_chunkIndex {V : Type} (embed : Str → V) (f : Str) :
    ∀ (cs : List Str) (i0 : Nat),
      (uploadLoop embed f cs i0).map (fun p => p.2.metadata.chunkIndex) =
        List.range' i0 cs.length := by
  intro cs
  induction cs with
  | nil => intro i0; rfl
  | cons c rest ih =>
      intro i0
      simp only [uploadLoop, List.map_cons, List.length_cons, mkRecord]
      rw [ih (i0 + 1)]
      rfl

theorem uploadRun_abort {V : Type} (embed : Str → Except UpErr V)
    (upsert : Str → VectorRecord V → Except UpErr Unit) (f c : Str)
    (rest : List Str) (i : Nat) (done : List (Str × VectorRecord V)) (e : UpErr)
    (h : embed c = Except.error e ∨
      ∃ v, embed c = Except.ok v ∧ upsert f (mkRecord f i c v) = Except.error e) :
    uploadRun embed upsert f (c :: rest) i done = (done.reverse, Except.error e) := by
  rcases h with h | ⟨v, hv, hu⟩
  · simp [uploadRun, h]
  · simp [uploadRun, hv, hu]

theorem searchLoop_eq (q : Str → Nat → List RawMatch) :
    ∀ (nss : List Str) (acc : List SourceMatch),
      searchLoop q nss acc =
        acc ++ (nss.map (fun ns => (q ns 3).map (toSourceMatch ns))).flatten := by
  intro nss
  induction nss with
  | nil => intro acc; simp [searchLoop]
  | cons ns rest ih =>
      intro acc
      simp only [searchLoop]
      by_cases hq : (q ns 3).isEmpty
      · rw [if_pos hq, ih]
        have : q ns 3 = [] := List.isEmpty_iff.mp hq
        simp [this]
      · rw [if_neg hq, ih]
        simp [List.append_assoc]

/-- Claim C1, counterexample: concatenating ALL chunk texts with single
spaces restored between them does not always reproduce the normalized
sentence sequence.  For the text `"abcdefgh."` with `maxChunkChars = 5`
the chunker emits an empty chunk at ordinal 0 (the oversized first
sentence overflows an empty buffer), so the concatenation carries a
spurious leading space. -/
theorem claim_c1_counterexample :
    List.intercalate (' ' :: []) (chunkText "abcdefgh.".data 5) ≠
      normalizedText "abcdefgh.".data := by decide

/-- Claim C1, amended: concatenating the NON-EMPTY chunk texts in
ordinal order with single spaces restored between them reproduces the
normalized sentence sequence of the input (the only possible empty
chunk is the artifact at ordinal 0); chunk ordinals assigned by the
Indexer are contiguous starting at 0. -/
theorem claim_c1_amended (text : Str) (n : Nat) {V : Type} (embed : Str → V)
    (f : Str) :
    joinSp (chunkText text n) = normalizedText text ∧
    (uploadOps embed f text).map (fun p => p.2.metadata.chunkIndex) =
      List.range (chunkText text 400).length := by
  constructor
  · have hok : SentOk ([] ++ splitSentences text) := by
      simpa using splitSentences_sentOk text
    have h := chunkLoop_joinSp n (splitSentences text) [] hok
    simpa [chunkText, normalizedText, sjoin_nil] using h
  · rw [show uploadOps embed f text = uploadLoop embed f (chunkText text 400) 0
      from rfl, uploadLoop_map_chunkIndex, List.range_eq_range']

/-- Claim C2 (confirmed): for every text and every `maxChunkChars ≥ 1`,
every chunk is the trimmed join of a contiguous block of sentences (no
chunk boundary splits a sentence), and a chunk longer than the bound is
the trim of one single sentence whose own length exceeds the bound. -/
theorem claim_c2 (text : Str) (n : Nat) (hn : 1 ≤ n) :
    (∀ c ∈ chunkText text n, ∃ pre b post,
        splitSentences text = pre ++ b ++ post ∧ c = trim (sjoin b)) ∧
    (∀ c ∈ chunkText text n, n < c.length →
        ∃ s ∈ splitSentences text, c = trim s ∧ n < s.length) := by
  constructor
  · intro c hc
    have h := chunkLoop_chunks_infix n (splitSentences text) [] c hc
    simpa using h
  · intro c hc hlen
    have h := chunkLoop_oversize n (splitSentences text) []
      (Or.inl (Nat.zero_le (n + 1))) c hc hlen
    simpa using h

/-- Witness for claim C2 at the text `"Hi. Bye."` and bound 1. -/
theorem claim_c2_witness :
    1 ≤ 1 ∧
    ((∀ c ∈ chunkText "Hi. Bye.".data 1, ∃ pre b post,
        splitSentences "Hi. Bye.".data = pre ++ b ++ post ∧ c = trim (sjoin b)) ∧
     (∀ c ∈ chunkText "Hi. Bye.".data 1, 1 < c.length →
        ∃ s ∈ splitSentences "Hi. Bye.".data, c = trim s ∧ 1 < s.length)) :=
  ⟨Nat.le_refl 1, claim_c2 "Hi. Bye.".data 1 (Nat.le_refl 1)⟩

/-- Claim C3, counterexample: chunking
`"A cat sat. A dog ran. A bird flew."` with `maxChunkChars = 20` does
NOT yield the two chunks claimed by the spec: the loop closes the
buffer BEFORE appending the overflowing sentence, so `"A dog ran."`
cannot join `"A cat sat."` (the buffer `"A cat sat. "` plus it has
length 21 > 20). -/
theorem claim_c3_counterexample :
    chunkText "A cat sat. A dog ran. A bird flew.".data 20 ≠
      ("A cat sat. A dog ran.".data :: "A bird flew.".data :: []) := by decide

/-- Claim C3, amended: chunking
`"A cat sat. A dog ran. A bird flew."` with `maxChunkChars = 20` yields
the three chunks `["A cat sat.", "A dog ran.", "A bird flew."]`, with
synthetic line ranges `[1,15]`, `[16,30]`, `[31,45]`. -/
theorem claim_c3_amended :
    chunkText "A cat sat. A dog ran. A bird flew.".data 20 =
      ("A cat sat.".data :: "A dog ran.".data :: "A bird flew.".data :: []) ∧
    (List.range
        (chunkText "A cat sat. A dog ran. A bird flew.".data 20).length).map
        (fun i => (lineStartOf i, lineEndOf i)) =
      ((1, 15) :: (16, 30) :: (31, 45) :: []) := by
  refine ⟨by decide, by decide⟩

/-- Claim C4 (confirmed): indexing issues exactly one upsert per chunk,
in strict ordinal order (ordinals are `0, 1, ...` in sequence), each
into namespace `f` (the document id), and the record at ordinal `i` has
id `f ++ "-" ++ i`, the chunk's embedding, and metadata carrying the
document identity, the ordinal, the synthetic line range and the chunk
text. -/
theorem claim_c4 {V : Type} (embed : Str → V) (f text : Str) (i : Nat) (c : Str)
    (h : (chunkText text 400)[i]? = some c) :
    (uploadOps embed f text).length = (chunkText text 400).length ∧
    (uploadOps embed f text).map Prod.fst =
      List.replicate (chunkText text 400).length f ∧
    (uploadOps embed f text).map (fun p => p.2.metadata.chunkIndex) =
      List.range (chunkText text 400).length ∧
    (uploadOps embed f text)[i]? = some (f, mkRecord f i c (embed c)) ∧
    mkRecord f i c (embed c) =
      { id := f ++ '-' :: (Nat.repr i).data
        values := embed c
        metadata :=
          { file := f
            chunkIndex := i
            lineStart := i * 15 + 1
            lineEnd := (i + 1) * 15
            text := c } } := by
  refine ⟨uploadLoop_length embed f _ 0, uploadLoop_map_fst embed f _ 0, ?_, ?_, rfl⟩
  · rw [show uploadOps embed f text = uploadLoop embed f (chunkText text 400) 0
      from rfl, uploadLoop_map_chunkIndex, List.range_eq_range']
  · rw [show uploadOps embed f text = uploadLoop embed f (chunkText text 400) 0
      from rfl, uploadLoop_getElem, h]
    simp

/-- Witness for claim C4: the single-chunk document `"Hi. Bye."`. -/
theorem claim_c4_witness :
    (chunkText "Hi. Bye.".data 400)[0]? = some "Hi. Bye.".data ∧
    (uploadOps List.length "n.txt".data "Hi. Bye.".data).length =
      (chunkText "Hi. Bye.".data 400).length :=
  ⟨by decide,
    (claim_c4 List.length "n.txt".data "Hi. Bye.".data 0 "Hi. Bye.".data
      (by decide)).1⟩

/-- Claim C5, counterexample: the error reported to the caller does NOT
include the count of chunks indexed before the failure.  Two runs over
the same two-chunk document, one failing at the first embedding (0
chunks indexed) and one failing at the second (1 chunk indexed),
produce the IDENTICAL error response `{error: "boom"}`, so the response
cannot carry the completed-chunk count. -/
theorem claim_c5_counterexample :
    (uploadHandler
        (fun _ => Except.error (UpErr.embeddingUnavailable "boom".data))
        (fun _ _ => Except.ok ()) "a.txt".data
        (List.replicate 399 'a' ++ ('.' :: ' ' :: []) ++ "Bb.".data)).2 =
      (uploadHandler
        (fun c => if c = List.replicate 399 'a' ++ ('.' :: []) then Except.ok 0
          else Except.error (UpErr.embeddingUnavailable "boom".data))
        (fun _ _ => Except.ok ()) "a.txt".data
        (List.replicate 399 'a' ++ ('.' :: ' ' :: []) ++ "Bb.".data)).2 ∧
    (uploadHandler
        (fun _ => Except.error (UpErr.embeddingUnavailable "boom".data))
        (fun _ _ => Except.ok ()) "a.txt".data
        (List.replicate 399 'a' ++ ('.' :: ' ' :: []) ++ "Bb.".data)).1.length = 0 ∧
    (uploadHandler
        (fun c => if c = List.replicate 399 'a' ++ ('.' :: []) then Except.ok 0
          else Except.error (UpErr.embeddingUnavailable "boom".data))
        (fun _ _ => Except.ok ()) "a.txt".data
        (List.replicate 399 'a' ++ ('.' :: ' ' :: []) ++ "Bb.".data)).1.length = 1 := by
  refine ⟨by decide, by decide, by decide⟩

/-- Claim C5, amended: when the Embedding Gateway call or the Vector
Store write for a chunk fails, the remaining chunks are aborted — the
loop returns immediately with only the previously completed upserts —
and the caught error is reported to the caller as `{error: err.message}`
only; the count of chunks indexed before the failure is reported only
on success, not in the error response. -/
theorem claim_c5_amended {V : Type} (embed : Str → Except UpErr V)
    (upsert : Str → VectorRecord V → Except UpErr Unit) (f c : Str)
    (rest : List Str) (i : Nat) (done : List (Str × VectorRecord V)) (e : UpErr)
    (h : embed c = Except.error e ∨
      ∃ v, embed c = Except.ok v ∧ upsert f (mkRecord f i c v) = Except.error e) :
    uploadRun embed upsert f (c :: rest) i done = (done.reverse, Except.error e) ∧
    ∀ (k : Nat) (ops : List (Str × VectorRecord Nat)),
      uploadRespond f k (ops, Except.error e) =
        (ops, UploadResponse.serverError (errMessage e)) :=
  ⟨uploadRun_abort embed upsert f c rest i done e h, fun _ _ => rfl⟩

/-- Witness for claim C5 (amended): a failing embedding on the first
chunk of a two-sentence list aborts with no upserts issued. -/
theorem claim_c5_witness :
    ((fun _ : Str =>
        (Except.error (UpErr.embeddingUnavailable "boom".data) :
          Except UpErr Nat)) "a.".data =
      Except.error (UpErr.embeddingUnavailable "boom".data) ∨
     ∃ v, (fun _ : Str =>
        (Except.error (UpErr.embeddingUnavailable "boom".data) :
          Except UpErr Nat)) "a.".data = Except.ok v ∧
       (fun _ _ => Except.ok ()) "f.txt".data
         (mkRecord "f.txt".data 0 "a.".data v) =
         Except.error (UpErr.embeddingUnavailable "boom".data)) ∧
    (uploadRun
        (fun _ : Str =>
          (Except.error (UpErr.embeddingUnavailable "boom".data) :
            Except UpErr Nat))
        (fun _ _ => Except.ok ()) "f.txt".data ("a.".data :: "b.".data :: []) 0 []
        = ([], Except.error (UpErr.embeddingUnavailable "boom".data)) ∧
     ∀ (k : Nat) (ops : List (Str × VectorRecord Nat)),
       uploadRespond "f.txt".data k
           (ops, Except.error (UpErr.embeddingUnavailable "boom".data)) =
         (ops, UploadResponse.serverError
           (errMessage (UpErr.embeddingUnavailable "boom".data)))) :=
  ⟨Or.inl rfl,
    claim_c5_amended
      (fun _ : Str =>
        (Except.error (UpErr.embeddingUnavailable "boom".data) :
          Except UpErr Nat))
      (fun _ _ => Except.ok ()) "f.txt".data "a.".data ("b.".data :: []) 0 []
      (UpErr.embeddingUnavailable "boom".data) (Or.inl rfl)⟩

/-- Claim C6 (confirmed): the Retriever's candidate pool is exactly the
concatenation, in namespace enumeration order, of each namespace's own
top-3 query results mapped to matches — within-namespace order is
preserved and no cross-namespace re-ranking or score normalization
happens. -/
theorem claim_c6 (nss : List Str) (q : Str → Nat → List RawMatch) :
    searchMatches nss q =
      (nss.map (fun ns => (q ns 3).map (toSourceMatch ns))).flatten := by
  rw [searchMatches, searchLoop_eq]
  exact List.nil_append _

/-- Claim C7 (confirmed): whenever retrieval yields zero matches — in
particular when the Vector Store has zero namespaces — the search route
answers 200 with the fixed not-found text and an empty source list, and
the answer does not depend on the Generation Gateway (no generation
call is made); the empty result is not an error response. -/
theorem claim_c7 {V : Type} (embed : Str → V) (q : Str → V → Nat → List RawMatch)
    (gen : Str → Str → Str) (query : Str) (nss : List Str)
    (hq : (trim query).isEmpty = false)
    (hm : searchMatches nss (fun ns k => q ns (embed query) k) = []) :
    searchHandler embed q gen query nss = SearchResponse.ok notFoundAnswer [] ∧
    (∀ gen2 : Str → Str → Str,
      searchHandler embed q gen query nss = searchHandler embed q gen2 query nss) ∧
    (∀ q2 : Str → Nat → List RawMatch, searchMatches ([] : List Str) q2 = []) := by
  have key : ∀ g : Str → Str → Str,
      searchHandler embed q g query nss = SearchResponse.ok notFoundAnswer [] := by
    intro g
    unfold searchHandler
    rw [hq]
    simp only [Bool.false_eq_true, if_false, hm]
    rfl
  exact ⟨key gen, fun gen2 => by rw [key gen, key gen2], fun q2 => rfl⟩

/-- Witness for claim C7: a non-blank query against an empty store. -/
theorem claim_c7_witness :
    (trim "hi?".data).isEmpty = false ∧
    searchMatches ([] : List Str)
      (fun ns k =>
        (fun _ _ _ => ([] : List RawMatch)) ns ((fun _ : Str => (0 : Nat)) "hi?".data) k) = [] ∧
    (searchHandler (fun _ : Str => (0 : Nat)) (fun _ _ _ => ([] : List RawMatch))
        (fun _ _ => ([] : Str)) "hi?".data [] =
      SearchResponse.ok notFoundAnswer [] ∧
    (∀ gen2 : Str → Str → Str,
      searchHandler (fun _ : Str => (0 : Nat)) (fun _ _ _ => ([] : List RawMatch))
          (fun _ _ => ([] : Str)) "hi?".data [] =
        searchHandler (fun _ : Str => (0 : Nat)) (fun _ _ _ => ([] : List RawMatch))
          gen2 "hi?".data []) ∧
    (∀ q2 : Str → Nat → List RawMatch, searchMatches ([] : List Str) q2 = [])) :=
  ⟨by decide, rfl,
    claim_c7 (fun _ : Str => (0 : Nat)) (fun _ _ _ => ([] : List RawMatch))
      (fun _ _ => ([] : Str)) "hi?".data [] (by decide) rfl⟩

/-- Claim C8 (confirmed): the synthetic line range of the record
upserted at chunk ordinal `i` is always `lineStart = 15·i + 1` and
`lineEnd = 15·(i + 1)`, for every document identity, every extracted
text and every embedding — a function of the ordinal alone. -/
theorem claim_c8 {V : Type} (embed : Str → V) (f text : Str) (i : Nat)
    (p : Str × VectorRecord V) (h : (uploadOps embed f text)[i]? = some p) :
    p.2.metadata.lineStart = 15 * i + 1 ∧
    p.2.metadata.lineEnd = 15 * (i + 1) := by
  rw [show uploadOps embed f text = uploadLoop embed f (chunkText text 400) 0
    from rfl, uploadLoop_getElem] at h
  cases hcs : (chunkText text 400)[i]? with
  | none => rw [hcs] at h; simp at h
  | some c =>
      rw [hcs] at h
      simp only [Option.map_some', Option.some_inj] at h
      rw [← h]
      refine ⟨?_, ?_⟩ <;>
        simp only [mkRecord, lineStartOf, lineEndOf] <;> omega

/-- Witness for claim C8 at ordinal 0 of the document `"Hi. Bye."`. -/
theorem claim_c8_witness :
    (uploadOps List.length "w.txt".data "Hi. Bye.".data)[0]? =
      some ("w.txt".data, mkRecord "w.txt".data 0 "Hi. Bye.".data 8) ∧
    ("w.txt".data, mkRecord "w.txt".data 0 "Hi. Bye.".data
        (8 : Nat)).2.metadata.lineStart = 15 * 0 + 1 ∧
    ("w.txt".data, mkRecord "w.txt".data 0 "Hi. Bye.".data
        (8 : Nat)).2.metadata.lineEnd = 15 * (0 + 1) :=
  ⟨by decide,
    claim_c8 List.length "w.txt".data "Hi. Bye.".data 0
      ("w.txt".data, mkRecord "w.txt".data 0 "Hi. Bye.".data 8) (by decide)⟩

/-- Claim C9 (confirmed): deleting a document clears its whole Vector
Store namespace and answers the success message; when the namespace
holds nothing (absent namespace) the deletion is a no-op on the store
and still succeeds, so a second delete of the same document also
succeeds and leaves the store unchanged.  The external Vector Store is
modelled from the spec's §6 contract with §7's no-op semantics for
deleting an unknown namespace. -/
theorem claim_c9 {V : Type} (store : Store V) (f : Str) :
    (deleteHandler store f).1 f = [] ∧
    (deleteHandler store f).2 =
      DeleteResponse.ok (f ++ " deleted successfully.".data) ∧
    (store f = [] → deleteAllNs store f = store) ∧
    deleteAllNs (deleteAllNs store f) f = deleteAllNs store f ∧
    (deleteHandler (deleteAllNs store f) f).2 =
      DeleteResponse.ok (f ++ " deleted successfully.".data) := by
  refine ⟨?_, rfl, ?_, ?_, rfl⟩
  · simp [deleteHandler, deleteAllNs]
  · intro h0
    funext m
    by_cases hm : m = f
    · subst hm; simp [deleteAllNs, h0]
    · simp [deleteAllNs, hm]
  · funext m
    by_cases hm : m = f <;> simp [deleteAllNs, hm]

/-- Witness for claim C9: deleting `"a.txt"` from the empty store is a
no-op. -/
theorem claim_c9_witness :
    ((fun _ : Str => ([] : List (VectorRecord Nat))) "a.txt".data = []) ∧
    deleteAllNs (fun _ : Str => ([] : List (VectorRecord Nat))) "a.txt".data =
      (fun _ : Str => ([] : List (VectorRecord Nat))) :=
  ⟨rfl,
    (claim_c9 (fun _ : Str => ([] : List (VectorRecord Nat)))
      "a.txt".data).2.2.1 rfl⟩

/-- Claim C10, counterexample: an oversized first sentence does NOT
always put the sentence into a later chunk.  For the all-whitespace
text `"   "` with `maxChunkChars = 1` the first (and only) sentence has
length 3 > 1, the empty string is emitted as chunk 0, but the final
buffer trims to nothing, so no later chunk carries the sentence — the
whole output is `[""]`. -/
theorem claim_c10_counterexample :
    1 < ("   ".data).length ∧
    splitSentences "   ".data = ("   ".data :: []) ∧
    chunkText "   ".data 1 = ([] :: []) := by decide

/-- Claim C10, amended: whenever the first sentence alone is longer
than `maxChunkChars`, chunk ordinal 0 is the empty string; if that
sentence trims to something non-empty, its trimmed text is the next
chunk (ordinal 1).  Hence some inputs produce a chunk with empty
text. -/
theorem claim_c10_amended (text : Str) (n : Nat) (s0 : Str) (rest : List Str)
    (hs : splitSentences text = s0 :: rest) (hn : n < s0.length) :
    (chunkText text n).head? = some [] ∧
    (trim s0 ≠ [] → ((chunkText text n).drop 1).head? = some (trim s0)) := by
  have hover : n < (([] : Str) ++ s0).length := by simpa using hn
  constructor
  · rw [chunkText, hs]
    simp only [chunkLoop]
    rw [if_pos hover]
    rfl
  · intro ht
    rw [chunkText, hs]
    simp only [chunkLoop]
    rw [if_pos hover]
    simp only [List.drop_one, List.tail_cons]
    exact chunkLoop_oversized_head n s0 hn ht rest

/-- Witness for claim C10 (amended) at the text `"abcdefgh."` with
bound 5: chunk 0 is empty, chunk 1 is the whole sentence. -/
theorem claim_c10_witness :
    splitSentences "abcdefgh.".data = ("abcdefgh.".data :: []) ∧
    5 < ("abcdefgh.".data).length ∧
    ((chunkText "abcdefgh.".data 5).head? = some [] ∧
     (trim "abcdefgh.".data ≠ [] →
       ((chunkText "abcdefgh.".data 5).drop 1).head? =
         some (trim "abcdefgh.".data))) :=
  ⟨by decide, by decide,
    claim_c10_amended "abcdefgh.".data 5 "abcdefgh.".data [] (by decide)
      (by decide)⟩
